import Mathlib

/-!
Verification of the goblet Git caching proxy (github.com/google/goblet) against
its natural-language specification. The Go source is shallowly embedded: Go
strings become lists of characters, gRPC status errors become an inductive
type, fallible functions return `Except`, and the request-scoped state
machines become functions over explicit event traces.
-/

namespace Goblet

/-- Canonical gRPC status codes used by the source (google.golang.org/grpc/codes). -/
inductive Code where
  | ok
  | canceled
  | invalidArgument
  | unimplemented
  | unavailable
  | internal
  | unauthenticated
  | unknown
  | dataLoss
  | deadlineExceeded
  deriving DecidableEq, Repr

/-- Model of a Go `error` value as the reporting layer distinguishes them:
either a gRPC status error carrying a canonical code (`status.Error`,
`status.Errorf`), or a plain error with no status (`fmt.Errorf`). -/
inductive GoErr where
  | statusErr (c : Code)
  | plainErr
  deriving DecidableEq, Repr

/-- Model of the code computation in `gitProtocolHTTPErrorReporter.reportError`
(reporting.go:87-91): the default is `codes.Internal`; `status.FromError`
returns an OK status for a nil error and the carried code for a status error,
while a plain error keeps the `Internal` default. -/
def reportedCode : Option GoErr → Code
  | none => .ok
  | some (.statusErr c) => c
  | some .plainErr => .internal

/-- The git-protocol reporter writes an error pkt-line to the response iff the
reported error value is non-nil (reporting.go:99-101). -/
def writesErrorPkt (e : Option GoErr) : Bool := e.isSome

/-- Model of the `serverErrorCodes` set (reporting.go:31-39). -/
def isServerErrorCode (c : Code) : Bool :=
  c = .dataLoss || c = .deadlineExceeded || c = .internal || c = .unavailable || c = .unknown

/-! ## monitoringReader.Close (claim C10) -/

/-- Outcome of a call to a Close method in the embedding. -/
inductive CloseOutcome where
  | closedUnderlying
  | diverged
  deriving DecidableEq, Repr

/-- Model of `monitoringReader.Close` (reporting.go:147-149). Its body is
`return r.Close()` — a call to the receiver's own `Close` method, not to the
wrapped `r.r` reader. The self-recursion is modelled with explicit fuel: each
recursive call consumes one unit, and exhausting any finite fuel without having
closed the underlying reader means the call never returns (in Go, unbounded
recursion until the stack overflows). -/
def monitoringReaderClose : Nat → CloseOutcome
  | 0 => .diverged
  | n + 1 => monitoringReaderClose n

/-- Model of the evidently intended body `return r.r.Close()`, which forwards
to the underlying body reader's `Close` and terminates at once. -/
def monitoringReaderCloseIntended : Nat → CloseOutcome
  | _ => .closedUnderlying

/-- C10: calling `Close` on the wrapped request body never terminates and never
closes the underlying reader: `monitoringReader.Close` calls itself, so under
every finite call-stack budget the call diverges, whereas the intended
`r.r.Close()` closes the underlying reader immediately. -/
theorem monitoringReaderClose_diverges (n : Nat) :
    monitoringReaderClose n = .diverged ∧
    monitoringReaderCloseIntended n = .closedUnderlying := by
  refine ⟨?_, rfl⟩
  induction n with
  | zero => rfl
  | succ k ih => simpa [monitoringReaderClose] using ih

/-! ## Strings -/

/-- Go strings are modelled as lists of characters. -/
abbrev GoStr := List Char

/-- Model of `strings.HasPrefix s p`. -/
def startsWith : GoStr → GoStr → Bool
  | _, [] => true
  | [], _ :: _ => false
  | c :: s, p :: ps => c = p && startsWith s ps

/-- Model of `strings.HasSuffix s suf`: length check plus a comparison of the
trailing segment. -/
def endsWith (s suf : GoStr) : Bool :=
  decide (suf.length ≤ s.length) && decide (s.drop (s.length - suf.length) = suf)

/-- Model of `strings.TrimPrefix`: drops the given leading segment when
present, otherwise returns the string unchanged. -/
def trimLeading (s p : GoStr) : GoStr :=
  if startsWith s p then s.drop p.length else s

/-- Model of `strings.TrimSuffix`. -/
def trimTrailing (s suf : GoStr) : GoStr :=
  if endsWith s suf then s.take (s.length - suf.length) else s

theorem startsWith_iff (p : GoStr) : ∀ s : GoStr, startsWith s p = true ↔ ∃ t, s = p ++ t := by
  induction p with
  | nil => intro s; simp [startsWith]
  | cons c cs ih =>
    intro s
    match s with
    | [] => simp [startsWith]
    | a :: as =>
      simp only [startsWith, Bool.and_eq_true, decide_eq_true_eq, ih as]
      constructor
      · rintro ⟨rfl, t, rfl⟩; exact ⟨t, rfl⟩
      · rintro ⟨t, h⟩
        injection h with h1 h2
        exact ⟨h1, t, h2⟩

theorem endsWith_iff (l s : GoStr) : endsWith l s = true ↔ ∃ t, l = t ++ s := by
  unfold endsWith
  simp only [Bool.and_eq_true, decide_eq_true_eq]
  constructor
  · rintro ⟨hlen, hdrop⟩
    refine ⟨l.take (l.length - s.length), ?_⟩
    conv_lhs => rw [← List.take_append_drop (l.length - s.length) l]
    rw [hdrop]
  · rintro ⟨t, rfl⟩
    have hlen : (t ++ s).length - s.length = t.length := by simp
    refine ⟨by simp, ?_⟩
    rw [hlen, List.drop_left]

/-- Two nonempty suffixes of the same string end in the same character. -/
theorem endsWith_getLast (l s : GoStr) (h : endsWith l s = true) (hs : s ≠ []) :
    l.getLast? = s.getLast? := by
  obtain ⟨t, rfl⟩ := (endsWith_iff _ _).1 h
  exact List.getLast?_append_of_ne_nil t hs

/-! ## CanonicalizeURL (claim C3) -/

/-- String literals used by `CanonicalizeURL` (google/urls.go). -/
def strGooglesourceDomain : GoStr := ".googlesource.com".toList

def strSourceDevelopers : GoStr := "source.developers.google.com".toList

def strSlashASlash : GoStr := "/a/".toList

def strSlashA : GoStr := "/a".toList

def strInfoRefs : GoStr := "/info/refs".toList

def strUploadPack : GoStr := "/git-upload-pack".toList

def strReceivePack : GoStr := "/git-receive-pack".toList

def strDotGit : GoStr := ".git".toList

def strHttps : GoStr := "https".toList

/-- Model of the `net/url.URL` fields that `CanonicalizeURL` reads and writes
(`Scheme`, `Host`, `Path`; the function builds a fresh URL from exactly these). -/
structure GoURL where
  scheme : GoStr
  host : GoStr
  path : GoStr
  deriving DecidableEq, Repr

/-- Shared tail of `CanonicalizeURL` (google/urls.go:158-167): trim the first
matching Git endpoint suffix, then a trailing `.git`, and force the scheme to
`https`. -/
def canonTail (host path : GoStr) : GoURL :=
  let p1 :=
    if endsWith path strInfoRefs then trimTrailing path strInfoRefs
    else if endsWith path strUploadPack then trimTrailing path strUploadPack
    else if endsWith path strReceivePack then trimTrailing path strReceivePack
    else path
  ⟨strHttps, host, trimTrailing p1 strDotGit⟩

/-- Model of `CanonicalizeURL` (google/urls.go:142-168): keep host and path,
force https; `*.googlesource.com` hosts drop a leading `/a` authorization
prefix; `source.developers.google.com` is passed through; any other host is
rejected with `InvalidArgument`; finally the Git endpoint suffixes and `.git`
are trimmed. -/
def CanonicalizeURL (u : GoURL) : Except GoErr GoURL :=
  if endsWith u.host strGooglesourceDomain then
    let p := if startsWith u.path strSlashASlash then trimLeading u.path strSlashA else u.path
    .ok (canonTail u.host p)
  else if u.host = strSourceDevelopers then
    .ok (canonTail u.host u.path)
  else
    .error (.statusErr .invalidArgument)

/-- Decidable equality for `Except`, used to evaluate the embedding at
concrete inputs. -/
instance exceptDecEq {ε α : Type} [DecidableEq ε] [DecidableEq α] :
    DecidableEq (Except ε α) := fun a b =>
  match a, b with
  | .error x, .error y =>
    if h : x = y then isTrue (congrArg Except.error h)
    else isFalse fun hh => h (Except.error.inj hh)
  | .error _, .ok _ => isFalse fun hh => Except.noConfusion hh
  | .ok _, .error _ => isFalse fun hh => Except.noConfusion hh
  | .ok x, .ok y =>
    if h : x = y then isTrue (congrArg Except.ok h)
    else isFalse fun hh => h (Except.ok.inj hh)

/-- A googlesource.com URL whose path is `/a/a/repo`. -/
def c3URL : GoURL := ⟨strHttps, "foo.googlesource.com".toList, "/a/a/repo".toList⟩

/-- C3 counterexample: `CanonicalizeURL` is not idempotent. On the accepted URL
with host `foo.googlesource.com` and path `/a/a/repo`, the first application
trims one leading `/a` giving path `/a/repo`, and applying the function to its
own result trims another `/a`, giving `/repo`; hence `C(C(u)) ≠ C(u)`. -/
theorem canonicalizeURL_not_idempotent :
    CanonicalizeURL c3URL
      = .ok ⟨strHttps, "foo.googlesource.com".toList, "/a/repo".toList⟩
    ∧ CanonicalizeURL ⟨strHttps, "foo.googlesource.com".toList, "/a/repo".toList⟩
      = .ok ⟨strHttps, "foo.googlesource.com".toList, "/repo".toList⟩
    ∧ (⟨strHttps, "foo.googlesource.com".toList, "/repo".toList⟩ : GoURL)
      ≠ ⟨strHttps, "foo.googlesource.com".toList, "/a/repo".toList⟩ := by
  refine ⟨by decide, by decide, by decide⟩

/-- When the path carries none of the trimmable endpoint suffixes, the shared
tail of `CanonicalizeURL` leaves it unchanged. -/
theorem canonTail_fixed (host path : GoStr)
    (h1 : endsWith path strInfoRefs = false)
    (h2 : endsWith path strUploadPack = false)
    (h3 : endsWith path strReceivePack = false)
    (h4 : endsWith path strDotGit = false) :
    canonTail host path = ⟨strHttps, host, path⟩ := by
  simp [canonTail, h1, h2, h3, h4, trimTrailing]

/-- Every accepted URL canonicalizes to an https URL on the same, accepted
host. -/
theorem canonicalizeURL_shape (u r : GoURL) (h : CanonicalizeURL u = .ok r) :
    r.scheme = strHttps ∧ r.host = u.host ∧
    (endsWith u.host strGooglesourceDomain = true ∨ u.host = strSourceDevelopers) := by
  by_cases hg : endsWith u.host strGooglesourceDomain = true
  · simp only [CanonicalizeURL, if_pos hg] at h
    obtain rfl := Except.ok.inj h
    exact ⟨rfl, rfl, Or.inl hg⟩
  · by_cases hd : u.host = strSourceDevelopers
    · simp only [CanonicalizeURL, if_neg hg, if_pos hd] at h
      obtain rfl := Except.ok.inj h
      exact ⟨rfl, rfl, Or.inr hd⟩
    · simp only [CanonicalizeURL, if_neg hg, if_neg hd] at h
      exact Except.noConfusion h

/-- An accepted https URL with no trimmable affixes is a fixed point of
`CanonicalizeURL`. -/
theorem canonicalizeURL_fixed (r : GoURL)
    (hscheme : r.scheme = strHttps)
    (hhost : endsWith r.host strGooglesourceDomain = true ∨ r.host = strSourceDevelopers)
    (ha : endsWith r.host strGooglesourceDomain = true → startsWith r.path strSlashASlash = false)
    (h1 : endsWith r.path strInfoRefs = false)
    (h2 : endsWith r.path strUploadPack = false)
    (h3 : endsWith r.path strReceivePack = false)
    (h4 : endsWith r.path strDotGit = false) :
    CanonicalizeURL r = .ok r := by
  have heta : (⟨strHttps, r.host, r.path⟩ : GoURL) = r := by
    cases r
    simp_all
  cases hhost with
  | inl hg =>
    have hsw := ha hg
    rw [CanonicalizeURL.eq_def]
    simp only [if_pos hg, hsw]
    rw [if_neg (by simp), canonTail_fixed r.host r.path h1 h2 h3 h4, heta]
  | inr hd =>
    have hg : endsWith r.host strGooglesourceDomain = false := by
      rw [hd]; decide
    rw [CanonicalizeURL.eq_def]
    simp only [hg, Bool.false_eq_true, if_false, if_pos hd]
    rw [canonTail_fixed r.host r.path h1 h2 h3 h4, heta]

/-- C3 amended: `CanonicalizeURL` is idempotent on every accepted URL whose
canonical result carries no further trimmable affixes: when the resulting path
does not begin with `/a/` (on a `*.googlesource.com` host) and does not end in
`/info/refs`, `/git-upload-pack`, `/git-receive-pack` or `.git`, applying the
function to its own result returns that result unchanged. The counterexample
shows these side conditions are necessary: a second application trims a path
such as `/a/a/repo` again, so idempotence fails in general. -/
theorem canonicalizeURL_idem_reduced (u r : GoURL)
    (h : CanonicalizeURL u = .ok r)
    (ha : endsWith r.host strGooglesourceDomain = true → startsWith r.path strSlashASlash = false)
    (h1 : endsWith r.path strInfoRefs = false)
    (h2 : endsWith r.path strUploadPack = false)
    (h3 : endsWith r.path strReceivePack = false)
    (h4 : endsWith r.path strDotGit = false) :
    CanonicalizeURL r = .ok r := by
  obtain ⟨hs, hh, hacc⟩ := canonicalizeURL_shape u r h
  exact canonicalizeURL_fixed r hs (by rw [hh]; exact hacc) ha h1 h2 h3 h4

/-- Witness for the amended C3 theorem at the accepted URL
`http://foo.googlesource.com/repo`. -/
theorem canonicalizeURL_idem_reduced_witness :
    CanonicalizeURL ⟨strHttps, "foo.googlesource.com".toList, "/repo".toList⟩
      = .ok ⟨strHttps, "foo.googlesource.com".toList, "/repo".toList⟩ :=
  canonicalizeURL_idem_reduced
    ⟨"http".toList, "foo.googlesource.com".toList, "/repo".toList⟩
    ⟨strHttps, "foo.googlesource.com".toList, "/repo".toList⟩
    (by decide) (by decide) (by decide) (by decide) (by decide) (by decide)

/-! ## parseFetchWants (claim C5) -/

/-- Model of `strings.Split(s, " ")` for the single-character separator the
handler uses: split at every occurrence of the separator, keeping empty
fields. -/
def splitOnChar (sep : Char) : GoStr → List GoStr
  | [] => [[]]
  | c :: rest =>
    if c = sep then [] :: splitOnChar sep rest
    else
      match splitOnChar sep rest with
      | [] => [[c]]
      | r :: rs => (c :: r) :: rs

theorem splitOnChar_ne_nil (sep : Char) (l : GoStr) : splitOnChar sep l ≠ [] := by
  cases l with
  | nil => simp [splitOnChar]
  | cons c rest =>
    by_cases h : c = sep
    · simp [splitOnChar, h]
    · simp only [splitOnChar, if_neg h]
      cases splitOnChar sep rest <;> simp

theorem splitOnChar_length (sep : Char) (l : GoStr) :
    (splitOnChar sep l).length = l.count sep + 1 := by
  induction l with
  | nil => simp [splitOnChar]
  | cons c rest ih =>
    by_cases h : c = sep
    · subst h
      simp [splitOnChar, List.count_cons, ih]
    · rcases hr : splitOnChar sep rest with _ | ⟨r, rs⟩
      · exact absurd hr (splitOnChar_ne_nil sep rest)
      · rw [hr] at ih
        simp only [List.length_cons] at ih
        simp [splitOnChar, h, Ne.symm h, hr, List.count_cons]
        omega

/-- A string with at least one separator splits into at least two fields. -/
theorem splitOnChar_two_of_count (sep : Char) (l : GoStr) (h : 1 ≤ l.count sep) :
    ∃ a b t, splitOnChar sep l = a :: b :: t := by
  have hlen := splitOnChar_length sep l
  rcases hs : splitOnChar sep l with _ | ⟨a, _ | ⟨b, t⟩⟩
  · exact absurd hs (splitOnChar_ne_nil sep l)
  · rw [hs] at hlen
    simp at hlen
    omega
  · exact ⟨a, b, t, rfl⟩

theorem count_le_of_startsWith (s p : GoStr) (sep : Char) (h : startsWith s p = true) :
    p.count sep ≤ s.count sep := by
  obtain ⟨t, rfl⟩ := (startsWith_iff p s).1 h
  simp [List.count_append]

/-- Model of `gitprotocolio.ProtocolV2RequestChunk` restricted to the fields
the repository's handler reads: the command name, the end-request flag, and
the argument line; `none` models a nil `Argument`. -/
structure RequestChunk where
  command : GoStr
  endRequest : Bool
  argument : Option GoStr
  deriving DecidableEq, Repr

/-- Hex value of a digit character, as in Go's `encoding/hex`. -/
def hexVal (c : Char) : Option Nat :=
  if '0' ≤ c ∧ c ≤ '9' then some (c.toNat - '0'.toNat)
  else if 'a' ≤ c ∧ c ≤ 'f' then some (c.toNat - 'a'.toNat + 10)
  else if 'A' ≤ c ∧ c ≤ 'F' then some (c.toNat - 'A'.toNat + 10)
  else none

/-- Model of `hex.DecodeString` as go-git uses it: decode pairs of hex digits
and keep the bytes decoded before the first malformed pair or odd-length tail
(go-git's `NewHash` discards the error). -/
def hexDecode : GoStr → List Nat
  | a :: b :: rest =>
    match hexVal a, hexVal b with
    | some x, some y => (16 * x + y) :: hexDecode rest
    | _, _ => []
  | _ => []

/-- Model of go-git `plumbing.Hash`: 20 bytes. -/
abbrev Hash := List Nat

/-- Model of go-git `plumbing.NewHash`: hex-decode the string and copy the
result into a zeroed 20-byte array, so an invalid or short input yields
trailing zero bytes. -/
def newHash (s : GoStr) : Hash :=
  let b := (hexDecode s).take 20
  b ++ List.replicate (20 - b.length) 0

/-- ASCII whitespace test standing in for `unicode.IsSpace` on the byte-level
inputs at hand. -/
def isSpaceChar (c : Char) : Bool := c = ' ' || c = '\t' || c = '\n' || c = '\r'

/-- Model of `strings.TrimSpace`. -/
def trimSpace (s : GoStr) : GoStr :=
  ((s.dropWhile isSpaceChar).reverse.dropWhile isSpaceChar).reverse

/-- String literals of `parseFetchWants`. -/
def strWantSp : GoStr := "want ".toList

def strWantRefSp : GoStr := "want-ref ".toList

/-- Model of `parseFetchWants` (git_protocol_v2_handler.go:162-185): scan the
argument chunks; a line starting with `want ` contributes a hash, a line
starting with `want-ref ` contributes a ref name, and a line with fewer than
two space-separated components yields `InvalidArgument`; all other lines are
skipped. -/
def parseFetchWants : List RequestChunk → Except GoErr (List Hash × List GoStr)
  | [] => .ok ([], [])
  | ch :: rest =>
    match ch.argument with
    | none => parseFetchWants rest
    | some s =>
      if startsWith s strWantSp then
        match splitOnChar ' ' s with
        | _ :: x :: _ =>
          match parseFetchWants rest with
          | .ok (hs, rs) => .ok (newHash (trimSpace x) :: hs, rs)
          | .error e => .error e
        | _ => .error (.statusErr .invalidArgument)
      else if startsWith s strWantRefSp then
        match splitOnChar ' ' s with
        | _ :: x :: _ =>
          match parseFetchWants rest with
          | .ok (hs, rs) => .ok (hs, trimSpace x :: rs)
          | .error e => .error e
        | _ => .error (.statusErr .invalidArgument)
      else parseFetchWants rest

/-- C5 counterexample: the malformed argument line `want ` (an empty hash
field) is silently accepted as the all-zero hash rather than rejected with
`InvalidArgument`: a line carrying the `want ` prefix always splits into at
least two space-separated fields, so the error branch cannot fire on it. -/
theorem parseFetchWants_accepts_malformed :
    parseFetchWants [⟨"fetch".toList, false, some ("want ".toList)⟩]
      = .ok ([List.replicate 20 0], []) := by decide

/-- C5 amended: `parseFetchWants` never returns an error — in particular it
never returns `InvalidArgument` for any `want `/`want-ref ` argument line:
since such a line contains the space of its prefix, `strings.Split` always
yields at least two components and the `InvalidArgument` branches are
unreachable; unparseable hashes and empty fields are silently accepted. -/
theorem parseFetchWants_never_fails (chunks : List RequestChunk) :
    ∃ r, parseFetchWants chunks = .ok r := by
  induction chunks with
  | nil => exact ⟨([], []), rfl⟩
  | cons ch rest ih =>
    obtain ⟨⟨hs, rs⟩, hr⟩ := ih
    obtain ⟨cmd, er, arg⟩ := ch
    rcases arg with _ | s
    · simp only [parseFetchWants]
      exact ⟨(hs, rs), hr⟩
    · simp only [parseFetchWants]
      by_cases hw : startsWith s strWantSp = true
      · have hc : 1 ≤ s.count ' ' := by
          have := count_le_of_startsWith s strWantSp ' ' hw
          simpa [strWantSp] using this
        obtain ⟨a, b, t, hsplit⟩ := splitOnChar_two_of_count ' ' s hc
        simp only [if_pos hw, hsplit, hr]
        exact ⟨(newHash (trimSpace b) :: hs, rs), rfl⟩
      · simp only [if_neg hw]
        by_cases hwr : startsWith s strWantRefSp = true
        · have hc : 1 ≤ s.count ' ' := by
            have := count_le_of_startsWith s strWantRefSp ' ' hwr
            simpa [strWantRefSp] using this
          obtain ⟨a, b, t, hsplit⟩ := splitOnChar_two_of_count ' ' s hc
          simp only [if_pos hwr, hsplit, hr]
          exact ⟨(hs, trimSpace b :: rs), rfl⟩
        · simp only [if_neg hwr]
          exact ⟨(hs, rs), hr⟩

/-! ## The fetch-coalescing wait loop of handleV2Command (claims C1, C4) -/

/-- Events observable by the `LOOP` select statement of `handleV2Command`
(git_protocol_v2_handler.go:108-132), each paired with the answer the handler
then obtains from `repo.hasAllWants`: `ctxDone` carries `ctx.Err()`;
`fetchDone` carries the result of the `repo.fetchUpstream()` goroutine (`none`
models a nil error, i.e. success) together with the subsequent `hasAllWants`
answer; `tick` carries the `hasAllWants` answer of one timer re-check. -/
inductive WaitEvent where
  | ctxDone (e : GoErr)
  | fetchDone (fetchResult : Option GoErr) (hasAll : Except GoErr Bool)
  | tick (hasAll : Except GoErr Bool)
  deriving DecidableEq, Repr

/-- Outcome of the fetch branch of `handleV2Command`: `serve` means the loop
exits and `serveFetchLocal` is invoked; `abort reported` means the handler
returns false after passing the given error value (possibly nil) to
`reporter.reportError`; `pending` models an exhausted finite event trace with
the loop still waiting. -/
inductive FetchOutcome where
  | serve
  | abort (reported : Option GoErr)
  | pending
  deriving DecidableEq, Repr

/-- Model of the `LOOP` select loop of the fetch branch
(git_protocol_v2_handler.go:107-132), driven by a finite event trace. On
`ctx.Done()` the context error is reported; on fetch completion a failing
`hasAllWants` check reports the check error, missing wants report the fetch's
own result, and satisfied wants exit the loop; on a tick a failing check
reports its error, satisfied wants exit the loop, and missing wants re-arm the
timer and continue. -/
def runWaitLoop : List WaitEvent → FetchOutcome
  | [] => .pending
  | .ctxDone e :: _ => .abort (some e)
  | .fetchDone fr hw :: _ =>
    match hw with
    | .error ce => .abort (some ce)
    | .ok false => .abort fr
    | .ok true => .serve
  | .tick hw :: rest =>
    match hw with
    | .error e => .abort (some e)
    | .ok true => .serve
    | .ok false => runWaitLoop rest

/-- Model of the fetch case of `handleV2Command` after want parsing
(git_protocol_v2_handler.go:92-134): the initial `hasAllWants` check either
fails the command, serves it locally at once, or enters the wait loop. -/
def handleFetchCmd (initial : Except GoErr Bool) (evs : List WaitEvent) : FetchOutcome :=
  match initial with
  | .error e => .abort (some e)
  | .ok true => .serve
  | .ok false => runWaitLoop evs

/-- Ghost trace: the successive `hasAllWants` answers the wait loop consults on
a given event trace, in order, cut off where the loop stops consulting. -/
def loopChecks : List WaitEvent → List (Except GoErr Bool)
  | [] => []
  | .ctxDone _ :: _ => []
  | .fetchDone _ hw :: _ => [hw]
  | .tick hw :: rest =>
    match hw with
    | .ok false => hw :: loopChecks rest
    | _ => [hw]

/-- Ghost trace of all `hasAllWants` answers the fetch branch consults,
including the initial check. -/
def fetchChecks (initial : Except GoErr Bool) (evs : List WaitEvent) :
    List (Except GoErr Bool) :=
  match initial with
  | .ok false => initial :: loopChecks evs
  | _ => [initial]

theorem getLast?_cons_ne_nil {α : Type} (a : α) (l : List α) (h : l ≠ []) :
    (a :: l).getLast? = l.getLast? :=
  List.getLast?_append_of_ne_nil [a] h

theorem runWaitLoop_serve_last_check (evs : List WaitEvent)
    (h : runWaitLoop evs = .serve) :
    (loopChecks evs).getLast? = some (.ok true) := by
  induction evs with
  | nil => exact absurd h (by simp [runWaitLoop])
  | cons e rest ih =>
    match e with
    | .ctxDone e0 => exact absurd h (by simp [runWaitLoop])
    | .fetchDone fr hw =>
      match hw with
      | .error ce => exact absurd h (by simp [runWaitLoop])
      | .ok false => exact absurd h (by simp [runWaitLoop])
      | .ok true => simp [loopChecks]
    | .tick hw =>
      match hw with
      | .error e0 => exact absurd h (by simp [runWaitLoop])
      | .ok true => simp [loopChecks]
      | .ok false =>
        have hrest : runWaitLoop rest = .serve := by simpa [runWaitLoop] using h
        have hlast := ih hrest
        have hne : loopChecks rest ≠ [] := by
          intro hnil
          rw [hnil] at hlast
          exact Option.noConfusion hlast
        simp only [loopChecks]
        rw [getLast?_cons_ne_nil _ _ hne]
        exact hlast

/-- C4: whenever the fetch branch of `handleV2Command` reaches
`serveFetchLocal` (outcome `serve`), the most recent `hasAllWants` answer it
observed — the initial check, the post-fetch re-check, or a timer re-check —
was `true`; no control path serves locally after observing anything else. -/
theorem handleFetchCmd_serve_last_check (initial : Except GoErr Bool)
    (evs : List WaitEvent) (h : handleFetchCmd initial evs = .serve) :
    (fetchChecks initial evs).getLast? = some (.ok true) := by
  match initial with
  | .error e => exact absurd h (by simp [handleFetchCmd])
  | .ok true => simp [fetchChecks]
  | .ok false =>
    have hloop : runWaitLoop evs = .serve := by simpa [handleFetchCmd] using h
    have hlast := runWaitLoop_serve_last_check evs hloop
    have hne : loopChecks evs ≠ [] := by
      intro hnil
      rw [hnil] at hlast
      exact Option.noConfusion hlast
    simp only [fetchChecks]
    rw [getLast?_cons_ne_nil _ _ hne]
    exact hlast

/-- Witness for C4: a run that enters the wait loop, misses on one tick and
serves after the next tick observes that all wants are present. -/
theorem handleFetchCmd_serve_last_check_witness :
    (fetchChecks (.ok false) [.tick (.ok false), .tick (.ok true)]).getLast?
      = some (.ok true) :=
  handleFetchCmd_serve_last_check (.ok false) [.tick (.ok false), .tick (.ok true)] rfl

/-- C1 counterexample: when the triggered fetch completes successfully (nil
error) while `hasAllWants` still answers false, the command aborts reporting
the nil error — which the reporter records as canonical status OK and for
which it writes no error pkt-line — not an `Unavailable` error. -/
theorem fetch_success_missing_wants_reports_nil :
    runWaitLoop [.fetchDone none (.ok false)] = .abort none
    ∧ reportedCode none = .ok
    ∧ reportedCode none ≠ .unavailable
    ∧ writesErrorPkt none = false := by
  exact ⟨rfl, rfl, by decide, rfl⟩

/-- C1 amended: when the triggered fetch completes while `hasAllWants` still
answers false, the command fails and reports exactly the fetch's own error
value: the fetch's error when it failed, and the nil error — recorded as
status OK, with no error pkt-line written and no server-side error forwarded —
when the fetch succeeded; no `Unavailable` error is synthesized. -/
theorem fetchDone_missing_wants_aborts_with_fetch_error
    (fr : Option GoErr) (evs : List WaitEvent) :
    runWaitLoop (.fetchDone fr (.ok false) :: evs) = .abort fr
    ∧ (fr = none →
        reportedCode fr = .ok ∧ writesErrorPkt fr = false ∧
        isServerErrorCode (reportedCode fr) = false) := by
  refine ⟨rfl, ?_⟩
  rintro rfl
  exact ⟨rfl, rfl, rfl⟩

/-- Witness for the amended C1 theorem at a successful fetch. -/
theorem fetchDone_missing_wants_aborts_witness :
    runWaitLoop [.fetchDone none (.ok false)] = .abort none
    ∧ (reportedCode none = .ok ∧ writesErrorPkt none = false ∧
        isServerErrorCode (reportedCode none) = false) :=
  ⟨(fetchDone_missing_wants_aborts_with_fetch_error none []).1,
   (fetchDone_missing_wants_aborts_with_fetch_error none []).2 rfl⟩

/-! ## hasAllWants (claim C6) -/

/-- Result of looking an object or reference up in the local mirror: present,
cleanly absent (`plumbing.ErrObjectNotFound` / `plumbing.ErrReferenceNotFound`),
or failing with any other, storage-level error. -/
inductive Lookup where
  | found
  | notFound
  | storageError
  deriving DecidableEq, Repr

/-- Model of the on-disk repository state `hasAllWants` consults: whether
`git.PlainOpen` fails, and the outcome of each object and reference lookup. -/
structure MirrorState where
  openFails : Bool
  objLookup : Hash → Lookup
  refLookup : GoStr → Lookup

/-- Model of the two want-checking loops of `hasAllWants`
(managed_repository.go:277-291): the first cleanly missing item answers false
with no error; any other lookup failure is returned as a (plain, non-status)
error; otherwise the scan continues. -/
def scanWants {α : Type} (f : α → Lookup) : List α → Except GoErr Bool
  | [] => .ok true
  | x :: rest =>
    match f x with
    | .notFound => .ok false
    | .storageError => .error .plainErr
    | .found => scanWants f rest

/-- Model of `managedRepository.hasAllWants` (managed_repository.go:271-294):
open the local mirror (failure is a plain error), then scan the wanted object
hashes, then the wanted ref names. -/
def hasAllWants (st : MirrorState) (hashes : List Hash) (refs : List GoStr) :
    Except GoErr Bool :=
  if st.openFails then .error .plainErr
  else
    match scanWants st.objLookup hashes with
    | .ok true => scanWants st.refLookup refs
    | r => r

theorem scanWants_ok_true_iff {α : Type} (f : α → Lookup) (l : List α) :
    scanWants f l = .ok true ↔ ∀ x ∈ l, f x = .found := by
  induction l with
  | nil => simp [scanWants]
  | cons x rest ih =>
    rcases hx : f x with _ | _ | _ <;> simp [scanWants, hx, ih]

theorem scanWants_ok_false {α : Type} (f : α → Lookup) (l : List α)
    (hno : ∀ x ∈ l, f x ≠ .storageError) (hmiss : ∃ x ∈ l, f x = .notFound) :
    scanWants f l = .ok false := by
  induction l with
  | nil => simp at hmiss
  | cons x rest ih =>
    rcases hx : f x with _ | _ | _
    · simp only [scanWants, hx]
      refine ih (fun y hy => hno y (List.mem_cons_of_mem x hy)) ?_
      obtain ⟨y, hy, hyy⟩ := hmiss
      rcases List.mem_cons.1 hy with rfl | hy2
      · rw [hx] at hyy; exact absurd hyy (by decide)
      · exact ⟨y, hy2, hyy⟩
    · simp [scanWants, hx]
    · exact absurd hx (hno x (List.mem_cons_self x rest))

theorem scanWants_error {α : Type} (f : α → Lookup) (l : List α)
    (hno : ∀ x ∈ l, f x ≠ .notFound) (herr : ∃ x ∈ l, f x = .storageError) :
    scanWants f l = .error .plainErr := by
  induction l with
  | nil => simp at herr
  | cons x rest ih =>
    rcases hx : f x with _ | _ | _
    · simp only [scanWants, hx]
      refine ih (fun y hy => hno y (List.mem_cons_of_mem x hy)) ?_
      obtain ⟨y, hy, hyy⟩ := herr
      rcases List.mem_cons.1 hy with rfl | hy2
      · rw [hx] at hyy; exact absurd hyy (by decide)
      · exact ⟨y, hy2, hyy⟩
    · exact absurd hx (hno x (List.mem_cons_self x rest))
    · simp [scanWants, hx]

theorem hasAllWants_open (st : MirrorState) (hashes : List Hash) (refs : List GoStr)
    (h : st.openFails = true) : hasAllWants st hashes refs = .error .plainErr := by
  unfold hasAllWants
  rw [h]
  simp

theorem hasAllWants_closed (st : MirrorState) (hashes : List Hash) (refs : List GoStr)
    (h : st.openFails = false) :
    hasAllWants st hashes refs =
      match scanWants st.objLookup hashes with
      | .ok true => scanWants st.refLookup refs
      | r => r := by
  unfold hasAllWants
  rw [h]
  simp

/-- C6: `hasAllWants` answers true only when the mirror opened and every
wanted object hash and ref name is present; when nothing fails at storage
level and some want is cleanly missing it answers false without error; and a
storage-level failure — the mirror cannot be opened, or, absent any cleanly
missing want, some lookup fails — yields an error (a plain error, which the
reporting layer records as `Internal`) instead of a boolean answer. -/
theorem hasAllWants_spec (st : MirrorState) (hashes : List Hash) (refs : List GoStr) :
    (hasAllWants st hashes refs = .ok true →
      st.openFails = false
      ∧ (∀ h ∈ hashes, st.objLookup h = .found)
      ∧ (∀ r ∈ refs, st.refLookup r = .found))
    ∧ (st.openFails = false →
        (∀ h ∈ hashes, st.objLookup h ≠ .storageError) →
        (∀ r ∈ refs, st.refLookup r ≠ .storageError) →
        ((∃ h ∈ hashes, st.objLookup h = .notFound) ∨ (∃ r ∈ refs, st.refLookup r = .notFound)) →
        hasAllWants st hashes refs = .ok false)
    ∧ (st.openFails = true → hasAllWants st hashes refs = .error .plainErr)
    ∧ (st.openFails = false →
        (∀ h ∈ hashes, st.objLookup h ≠ .notFound) →
        (∀ r ∈ refs, st.refLookup r ≠ .notFound) →
        ((∃ h ∈ hashes, st.objLookup h = .storageError) ∨ (∃ r ∈ refs, st.refLookup r = .storageError)) →
        hasAllWants st hashes refs = .error .plainErr)
    ∧ (reportedCode (some .plainErr) = .internal) := by
  refine ⟨?_, ?_, ?_, ?_, rfl⟩
  · intro h
    rcases hop : st.openFails with _ | _
    · rw [hasAllWants_closed st hashes refs hop] at h
      rcases hsc : scanWants st.objLookup hashes with e | b
      · rw [hsc] at h
        exact Except.noConfusion h
      · rcases b with _ | _
        · rw [hsc] at h
          exact Bool.noConfusion (Except.ok.inj h)
        · rw [hsc] at h
          exact ⟨rfl, (scanWants_ok_true_iff _ _).1 hsc, (scanWants_ok_true_iff _ _).1 h⟩
    · rw [hasAllWants_open st hashes refs hop] at h
      exact Except.noConfusion h
  · intro hop hnoh hnor hmiss
    rw [hasAllWants_closed st hashes refs hop]
    by_cases hmh : ∃ h ∈ hashes, st.objLookup h = .notFound
    · simp only [scanWants_ok_false st.objLookup hashes hnoh hmh]
    · have hall : ∀ h ∈ hashes, st.objLookup h = .found := by
        intro x hx
        rcases hl : st.objLookup x with _ | _ | _
        · rfl
        · exact absurd ⟨x, hx, hl⟩ hmh
        · exact absurd hl (hnoh x hx)
      simp only [(scanWants_ok_true_iff st.objLookup hashes).2 hall]
      rcases hmiss with hm | hm
      · exact absurd hm hmh
      · exact scanWants_ok_false st.refLookup refs hnor hm
  · intro hop
    exact hasAllWants_open st hashes refs hop
  · intro hop hnoh hnor herr
    rw [hasAllWants_closed st hashes refs hop]
    by_cases heh : ∃ h ∈ hashes, st.objLookup h = .storageError
    · simp only [scanWants_error st.objLookup hashes hnoh heh]
    · have hall : ∀ h ∈ hashes, st.objLookup h = .found := by
        intro x hx
        rcases hl : st.objLookup x with _ | _ | _
        · rfl
        · exact absurd hl (hnoh x hx)
        · exact absurd ⟨x, hx, hl⟩ heh
      simp only [(scanWants_ok_true_iff st.objLookup hashes).2 hall]
      rcases herr with he | he
      · exact absurd he heh
      · exact scanWants_error st.refLookup refs hnor he

/-- A mirror state in which everything is present. -/
def mirrorAllFound : MirrorState :=
  ⟨false, fun _ => .found, fun _ => .found⟩

/-- A mirror state in which references are missing but nothing fails. -/
def mirrorRefMissing : MirrorState :=
  ⟨false, fun _ => .found, fun _ => .notFound⟩

/-- A mirror state whose reference lookups fail at storage level. -/
def mirrorRefBroken : MirrorState :=
  ⟨false, fun _ => .found, fun _ => .storageError⟩

/-- A mirror state whose repository cannot be opened. -/
def mirrorUnopenable : MirrorState :=
  ⟨true, fun _ => .found, fun _ => .found⟩

/-- Witness for C6: the false-without-error and error conjuncts of
`hasAllWants_spec` applied at concrete mirror states and want lists. -/
theorem hasAllWants_spec_witness :
    hasAllWants mirrorRefMissing [newHash []] ["HEAD".toList] = .ok false
    ∧ hasAllWants mirrorUnopenable [newHash []] ["HEAD".toList] = .error .plainErr
    ∧ hasAllWants mirrorRefBroken [newHash []] ["HEAD".toList] = .error .plainErr :=
  ⟨(hasAllWants_spec mirrorRefMissing [newHash []] ["HEAD".toList]).2.1 rfl
     (by intro x hx; exact fun hc => Lookup.noConfusion hc)
     (by intro x hx; exact fun hc => Lookup.noConfusion hc)
     (Or.inr ⟨"HEAD".toList, by simp, rfl⟩),
   (hasAllWants_spec mirrorUnopenable [newHash []] ["HEAD".toList]).2.2.1 rfl,
   (hasAllWants_spec mirrorRefBroken [newHash []] ["HEAD".toList]).2.2.2.1 rfl
     (by intro x hx; exact fun hc => Lookup.noConfusion hc)
     (by intro x hx; exact fun hc => Lookup.noConfusion hc)
     (Or.inr ⟨"HEAD".toList, by simp, rfl⟩)⟩

/-! ## fetchUpstream and the last-update timestamp (claim C7) -/

/-- Environment of one `fetchUpstream` execution
(managed_repository.go:173-218): whether `git.PlainOpen` succeeds, whether the
mirror has no `HEAD` (forcing the split two-phase fetch), the outcomes of the
token acquisitions and of the one or two `git fetch` subprocesses, and the
time captured by `startTime := time.Now()` before the lock is taken. Times are
seconds since epoch. -/
structure FetchCall where
  openOk : Bool
  headMissing : Bool
  tok1Ok : Bool
  fetch1Ok : Bool
  tok2Ok : Bool
  fetch2Ok : Bool
  start : Nat
  deriving DecidableEq, Repr

/-- Model of `fetchUpstream` acting on the repository's `lastUpdate` field:
returns the new `lastUpdate` value and whether the call returned a nil error.
The field is assigned `startTime` only when the whole fetch sequence returned
nil (managed_repository.go:214-216); every error path leaves it untouched. -/
def fetchUpstream (c : FetchCall) (lastUpdate : Nat) : Nat × Bool :=
  if !c.openOk then (lastUpdate, false)
  else
    match (if c.headMissing then (if !c.tok1Ok then none else some c.fetch1Ok) else some true) with
    | none => (lastUpdate, false)
    | some phase1Ok =>
      if phase1Ok then
        if !c.tok2Ok then (lastUpdate, false)
        else if c.fetch2Ok then (c.start, true)
        else (lastUpdate, false)
      else (lastUpdate, false)

/-- Successive `lastUpdate` values over a sequence of `fetchUpstream` calls. -/
def fetchTrace (lastUpdate : Nat) : List FetchCall → List Nat
  | [] => []
  | c :: cs =>
    ((fetchUpstream c lastUpdate).1) :: fetchTrace (fetchUpstream c lastUpdate).1 cs

theorem chain_le_of_le {a b : Nat} {l : List Nat} (hba : b ≤ a)
    (h : List.Chain (fun x y => x ≤ y) a l) : List.Chain (fun x y => x ≤ y) b l := by
  cases h with
  | nil => exact List.Chain.nil
  | cons hrel hch => exact List.Chain.cons (le_trans hba hrel) hch

theorem fetchUpstream_cases (c : FetchCall) (lu : Nat) :
    fetchUpstream c lu = (c.start, true) ∨ fetchUpstream c lu = (lu, false) := by
  unfold fetchUpstream
  rcases c.openOk with _ | _
  · simp
  · rcases c.headMissing with _ | _
    · simp only [Bool.not_true, Bool.false_eq_true, if_false, if_true]
      rcases c.tok2Ok with _ | _
      · simp
      · rcases c.fetch2Ok with _ | _ <;> simp
    · rcases c.tok1Ok with _ | _
      · simp
      · rcases c.fetch1Ok with _ | _
        · simp
        · simp only [Bool.not_true, Bool.false_eq_true, if_false, if_true]
          rcases c.tok2Ok with _ | _
          · simp
          · rcases c.fetch2Ok with _ | _ <;> simp

/-- C7: a successful `fetchUpstream` sets the repository's last-update
timestamp to the time captured at the start of that fetch; a failed one
leaves it exactly as it was; and along any sequence of sequential calls whose
start times are non-decreasing (as delivered by a monotone clock) and bound
below the current value, the last-update value never decreases. -/
theorem fetchUpstream_lastUpdate (c : FetchCall) (lu : Nat) :
    ((fetchUpstream c lu).2 = true → (fetchUpstream c lu).1 = c.start)
    ∧ ((fetchUpstream c lu).2 = false → (fetchUpstream c lu).1 = lu)
    ∧ (lu ≤ c.start → lu ≤ (fetchUpstream c lu).1)
    ∧ (∀ cs : List FetchCall,
        List.Chain (fun a b => a ≤ b) lu ((c :: cs).map FetchCall.start) →
        List.Chain (fun a b => a ≤ b) lu (fetchTrace lu (c :: cs))) := by
  refine ⟨?_, ?_, ?_, ?_⟩
  · intro h
    rcases fetchUpstream_cases c lu with hc | hc
    · simp [hc]
    · simp [hc] at h
  · intro h
    rcases fetchUpstream_cases c lu with hc | hc
    · simp [hc] at h
    · simp [hc]
  · intro h
    rcases fetchUpstream_cases c lu with hc | hc
    · simpa [hc] using h
    · simp [hc]
  · intro cs
    -- strengthen to arbitrary head call and bound
    suffices hgen : ∀ (calls : List FetchCall) (lu0 : Nat),
        List.Chain (fun a b => a ≤ b) lu0 (calls.map FetchCall.start) →
        List.Chain (fun a b => a ≤ b) lu0 (fetchTrace lu0 calls) by
      exact hgen (c :: cs) lu
    intro calls
    induction calls with
    | nil => intro lu0 _; exact List.Chain.nil
    | cons d ds ih =>
      intro lu0 hch
      rw [List.map_cons] at hch
      rcases hch with _ | ⟨hle, hch2⟩
      have hstep : lu0 ≤ (fetchUpstream d lu0).1 := by
        rcases fetchUpstream_cases d lu0 with hc | hc
        · simpa [hc] using hle
        · simp [hc]
      have hnext : List.Chain (fun a b => a ≤ b) (fetchUpstream d lu0).1
          (fetchTrace (fetchUpstream d lu0).1 ds) := by
        refine ih (fetchUpstream d lu0).1 ?_
        rcases fetchUpstream_cases d lu0 with hc | hc
        · simpa [hc] using hch2
        · simp only [hc]
          exact chain_le_of_le hle hch2
      exact List.Chain.cons hstep hnext

/-- Witness for C7 at concrete calls: a successful fetch from last-update 5
starting at time 7 sets last-update to 7; a failing fetch starting at 9 leaves
it at 7; and the two-call trace is non-decreasing. -/
theorem fetchUpstream_lastUpdate_witness :
    (fetchUpstream ⟨true, false, true, true, true, true, 7⟩ 5).1 = 7
    ∧ (fetchUpstream ⟨true, false, true, true, true, false, 9⟩ 7).1 = 7
    ∧ 5 ≤ (fetchUpstream ⟨true, false, true, true, true, true, 7⟩ 5).1
    ∧ List.Chain (fun a b => a ≤ b) 5
        (fetchTrace 5 [⟨true, false, true, true, true, true, 7⟩,
                       ⟨true, false, true, true, true, false, 9⟩]) := by
  refine ⟨?_, ?_, ?_, ?_⟩
  · exact (fetchUpstream_lastUpdate ⟨true, false, true, true, true, true, 7⟩ 5).1 rfl
  · exact (fetchUpstream_lastUpdate ⟨true, false, true, true, true, false, 9⟩ 7).2.1 rfl
  · exact (fetchUpstream_lastUpdate ⟨true, false, true, true, true, true, 7⟩ 5).2.2.1 (by decide)
  · exact (fetchUpstream_lastUpdate ⟨true, false, true, true, true, true, 7⟩ 5).2.2.2
      [⟨true, false, true, true, true, false, 9⟩]
      (List.Chain.cons (by decide) (List.Chain.cons (by decide) List.Chain.nil))

/-! ## ServeHTTP routing (claim C8) -/

/-- Model of an inbound HTTP request as `httpProxyServer.ServeHTTP` inspects
it: the authorizer's verdict (`none` = authorized), the value of the
`Git-Protocol` header (the empty string models an absent header), and the URL
path. -/
structure HttpReq where
  authResult : Option GoErr
  gitProtocol : GoStr
  urlPath : GoStr
  deriving DecidableEq, Repr

/-- Observable result of `httpProxyServer.ServeHTTP` at the routing level:
an error handed to the HTTP error reporter, dispatch to one of the two
sub-handlers, or fall-through (no switch case matches). -/
inductive ServeResult where
  | reported (e : GoErr)
  | infoRefsHandled
  | uploadPackHandled
  | noRoute
  deriving DecidableEq, Repr

/-- Literal for the required `Git-Protocol` header value. -/
def strVersion2 : GoStr := "version=2".toList

/-- Model of `httpProxyServer.ServeHTTP` (http_proxy_server.go:218-251): report
an authorization failure; then require the header `Git-Protocol: version=2`
for every route, else `InvalidArgument`; then route by URL suffix, in the
switch's order `/info/refs`, `/git-receive-pack`, `/git-upload-pack`, the
receive-pack case reporting `Unimplemented`. -/
def serveHTTP (r : HttpReq) : ServeResult :=
  match r.authResult with
  | some e => .reported e
  | none =>
    if r.gitProtocol ≠ strVersion2 then .reported (.statusErr .invalidArgument)
    else if endsWith r.urlPath strInfoRefs then .infoRefsHandled
    else if endsWith r.urlPath strReceivePack then .reported (.statusErr .unimplemented)
    else if endsWith r.urlPath strUploadPack then .uploadPackHandled
    else .noRoute

/-- C8 counterexample: an authorized request to a path ending in
`/git-receive-pack` that lacks the `Git-Protocol: version=2` header is
answered with `InvalidArgument`, not `Unimplemented` — the protocol-version
check runs before any routing. -/
theorem receivePack_without_header_not_unimplemented :
    serveHTTP ⟨none, [], "/repo/git-receive-pack".toList⟩
      = .reported (.statusErr .invalidArgument)
    ∧ serveHTTP ⟨none, [], "/repo/git-receive-pack".toList⟩
      ≠ .reported (.statusErr .unimplemented) := by
  exact ⟨rfl, by decide⟩

/-- C8 amended: every request whose URL path ends in `/git-receive-pack`, that
passes authorization and carries the header `Git-Protocol: version=2`, is
answered with an `Unimplemented` error; without that header the same request
is answered with `InvalidArgument` instead. -/
theorem receivePack_unimplemented (r : HttpReq)
    (hauth : r.authResult = none)
    (hproto : r.gitProtocol = strVersion2)
    (hsuf : endsWith r.urlPath strReceivePack = true) :
    serveHTTP r = .reported (.statusErr .unimplemented) := by
  have hinfo : endsWith r.urlPath strInfoRefs = false := by
    rcases hi : endsWith r.urlPath strInfoRefs with _ | _
    · rfl
    · have h1 := endsWith_getLast r.urlPath strReceivePack hsuf (by decide)
      have h2 := endsWith_getLast r.urlPath strInfoRefs hi (by decide)
      rw [h1] at h2
      exact absurd h2 (by decide)
  unfold serveHTTP
  rw [hauth, hproto]
  simp [hinfo, hsuf]

/-- Witness for the amended C8 theorem at a concrete authorized request. -/
theorem receivePack_unimplemented_witness :
    serveHTTP ⟨none, strVersion2, "/repo/git-receive-pack".toList⟩
      = .reported (.statusErr .unimplemented) :=
  receivePack_unimplemented ⟨none, strVersion2, "/repo/git-receive-pack".toList⟩
    rfl rfl (by decide)

/-! ## Writer-lock mutual exclusion of fetchUpstream (claim C9) -/

/-- Program counter of one task executing `fetchUpstream`
(managed_repository.go:173-218): `beforeLock` covers opening the repository
and the `HEAD` probe, which run before `r.mu.Lock()`; `critical` is the
section between `r.mu.Lock()` and the deferred unlock — token acquisition,
the `git fetch` subprocess(es) and the `lastUpdate` assignment; `done` is
after the deferred `r.mu.Unlock()`. -/
inductive FetchPc where
  | beforeLock
  | critical
  | done
  deriving DecidableEq, Repr

/-- State of one managed repository's `sync.RWMutex` together with `n` tasks
each running `fetchUpstream` on it: which task (if any) holds the writer half,
how many readers hold the reader half, and every task's program counter. -/
structure LockSys (n : Nat) where
  pc : Fin n → FetchPc
  writer : Option (Fin n)
  readers : Nat

/-- Interleaving semantics of the `sync.RWMutex` as `fetchUpstream` and the
read-side accessors use it: a task may enter the critical section only when
no writer and no reader holds the lock; leaving releases the writer half;
readers (`LastUpdateTime` and the like) may enter whenever no writer holds
the lock and leave at will. -/
inductive LockStep (n : Nat) : LockSys n → LockSys n → Prop
  | acquire (s : LockSys n) (i : Fin n)
      (hpc : s.pc i = .beforeLock) (hw : s.writer = none) (hr : s.readers = 0) :
      LockStep n s ⟨Function.update s.pc i .critical, some i, s.readers⟩
  | release (s : LockSys n) (i : Fin n)
      (hpc : s.pc i = .critical) (hw : s.writer = some i) :
      LockStep n s ⟨Function.update s.pc i .done, none, s.readers⟩
  | readerAcquire (s : LockSys n) (hw : s.writer = none) :
      LockStep n s ⟨s.pc, s.writer, s.readers + 1⟩
  | readerRelease (s : LockSys n) (hr : 0 < s.readers) :
      LockStep n s ⟨s.pc, s.writer, s.readers - 1⟩

/-- Initial state: all tasks before the lock, lock free. -/
def lockInit (n : Nat) : LockSys n := ⟨fun _ => .beforeLock, none, 0⟩

/-- Reachability of the lock system from its initial state. -/
def LockReach (n : Nat) (s : LockSys n) : Prop :=
  Relation.ReflTransGen (LockStep n) (lockInit n) s

/-- The inductive invariant: every task inside the critical section is the
registered writer. -/
def lockInv {n : Nat} (s : LockSys n) : Prop :=
  ∀ i : Fin n, s.pc i = .critical → s.writer = some i

theorem lockInv_init (n : Nat) : lockInv (lockInit n) := by
  intro i h
  exact FetchPc.noConfusion h

theorem lockInv_step {n : Nat} {s t : LockSys n} (hinv : lockInv s)
    (hstep : LockStep n s t) : lockInv t := by
  cases hstep with
  | acquire i hpc hw hr =>
    intro j hj
    by_cases hij : j = i
    · subst hij; rfl
    · simp only [Function.update_noteq hij] at hj
      have hc := hinv j hj
      rw [hw] at hc
      exact Option.noConfusion hc
  | release i hpc hw =>
    intro j hj
    by_cases hij : j = i
    · subst hij
      simp only [Function.update_same] at hj
      exact FetchPc.noConfusion hj
    · simp only [Function.update_noteq hij] at hj
      have hc := hinv j hj
      rw [hw] at hc
      have hij2 : i = j := Option.some.inj hc
      exact absurd hij2.symm hij
  | readerAcquire hw =>
    intro j hj
    exact hinv j hj
  | readerRelease hr =>
    intro j hj
    exact hinv j hj

theorem lockInv_reach {n : Nat} {s : LockSys n} (h : LockReach n s) : lockInv s := by
  induction h with
  | refl => exact lockInv_init n
  | tail _ hstep ih =>
    exact lockInv_step ih hstep

/-- C9: in every reachable state of a managed repository's lock system, at
most one task executing `fetchUpstream` is inside the writer-locked critical
section — concurrent fetch demands coalesce on the writer lock, so at most one
upstream `git fetch` runs at a time per repository. -/
theorem fetchUpstream_mutual_exclusion {n : Nat} {s : LockSys n}
    (hreach : LockReach n s) (i j : Fin n)
    (hi : s.pc i = .critical) (hj : s.pc j = .critical) : i = j := by
  have hinv := lockInv_reach hreach
  have h1 := hinv i hi
  have h2 := hinv j hj
  rw [h1] at h2
  exact Option.some.inj h2

/-- A two-task state in which task 0 has just taken the writer lock. -/
def lockStateOneHolder : LockSys 2 :=
  ⟨Function.update (lockInit 2).pc 0 .critical, some 0, 0⟩

theorem lockStateOneHolder_reach : LockReach 2 lockStateOneHolder :=
  Relation.ReflTransGen.single
    (LockStep.acquire (lockInit 2) 0 rfl rfl rfl)

/-- Witness for C9: in the reachable two-task state where task 0 holds the
writer lock, any task found in the critical section is task 0 itself. -/
theorem fetchUpstream_mutual_exclusion_witness :
    (0 : Fin 2) = (0 : Fin 2) :=
  fetchUpstream_mutual_exclusion lockStateOneHolder_reach 0 0
    (by simp [lockStateOneHolder, Function.update]) (by simp [lockStateOneHolder, Function.update])

/-! ## Backup snapshot cycle (claim C2) -/

/-- Object base names under one repository's bundle prefix, modelled as lists
of symbol values: a decimal digit character is modelled by its value 0-9, any
other character by a value ≥ 10. This preserves Go's byte-wise lexicographic
string order on the digit alphabet. -/
abbrev ObjName := List Nat

/-- Model of Go's byte-wise string comparison `a < b` (the order used by
`sort.StringSlice`). -/
def lexLt : ObjName → ObjName → Bool
  | [], [] => false
  | [], _ :: _ => true
  | _ :: _, [] => false
  | a :: as, b :: bs =>
    if a < b then true
    else if b < a then false
    else lexLt as bs

/-- Model of `strconv.ParseInt(name, 10, 64)` on a bundle base name: succeeds
iff the name is a nonempty string of decimal digits (signs and 64-bit
overflow do not occur on the names the system writes). -/
def parseIntName (n : ObjName) : Option Nat :=
  if n ≠ [] ∧ n.all (fun d => d < 10) then
    some (n.foldl (fun a d => 10 * a + d) 0)
  else none

/-- Digits of `t`, most significant first, zero-padded to width `k`. -/
def padDigits : Nat → Nat → ObjName
  | 0, _ => []
  | k + 1, t => (t / 10 ^ k) :: padDigits k (t % 10 ^ k)

/-- Model of the bundle file name `fmt.Sprintf("%012d", t)` for `t < 10^12`. -/
def pad12 (t : Nat) : ObjName := padDigits 12 t

theorem lt_of_div_lt_div {a b M : Nat} (hM : 0 < M) (hd : a / M < b / M) : a < b := by
  calc a = M * (a / M) + a % M := (Nat.div_add_mod a M).symm
    _ < M * (a / M) + M := Nat.add_lt_add_left (Nat.mod_lt a hM) _
    _ = M * (a / M + 1) := by ring
    _ ≤ M * (b / M) := Nat.mul_le_mul_left M hd
    _ ≤ M * (b / M) + b % M := Nat.le_add_right _ _
    _ = b := Nat.div_add_mod b M

theorem padDigits_lt_iff : ∀ (k a b : Nat), a < 10 ^ k → b < 10 ^ k →
    (lexLt (padDigits k a) (padDigits k b) = true ↔ a < b) := by
  intro k
  induction k with
  | zero =>
    intro a b ha hb
    have ha0 : a = 0 := by simpa using ha
    have hb0 : b = 0 := by simpa using hb
    subst ha0
    subst hb0
    simp [padDigits, lexLt]
  | succ k ih =>
    intro a b ha hb
    have hpos : 0 < 10 ^ k := pow_pos (by omega) k
    have e1 : 10 ^ k * (a / 10 ^ k) + a % 10 ^ k = a := Nat.div_add_mod a (10 ^ k)
    have e2 : 10 ^ k * (b / 10 ^ k) + b % 10 ^ k = b := Nat.div_add_mod b (10 ^ k)
    simp only [padDigits, lexLt]
    rcases Nat.lt_trichotomy (a / 10 ^ k) (b / 10 ^ k) with hd | hd | hd
    · rw [if_pos hd]
      simp only [true_iff]
      exact lt_of_div_lt_div hpos hd
    · rw [hd, if_neg (lt_irrefl (b / 10 ^ k)), if_neg (lt_irrefl (b / 10 ^ k))]
      rw [ih (a % 10 ^ k) (b % 10 ^ k) (Nat.mod_lt a hpos) (Nat.mod_lt b hpos)]
      constructor
      · intro hmod
        calc a = 10 ^ k * (a / 10 ^ k) + a % 10 ^ k := e1.symm
          _ < 10 ^ k * (a / 10 ^ k) + b % 10 ^ k := Nat.add_lt_add_left hmod _
          _ = 10 ^ k * (b / 10 ^ k) + b % 10 ^ k := by rw [hd]
          _ = b := e2
      · intro hab
        by_contra hno
        push_neg at hno
        have hba : b ≤ a := by
          calc b = 10 ^ k * (b / 10 ^ k) + b % 10 ^ k := e2.symm
            _ ≤ 10 ^ k * (a / 10 ^ k) + a % 10 ^ k := by
                rw [hd]; exact Nat.add_le_add_left hno _
            _ = a := e1
        omega
    · rw [if_neg (Nat.lt_asymm hd), if_pos hd]
      have hba : b < a := lt_of_div_lt_div hpos hd
      simp only [Bool.false_eq_true, false_iff]
      omega

theorem padDigits_foldl : ∀ (k t a : Nat), t < 10 ^ k →
    (padDigits k t).foldl (fun x d => 10 * x + d) a = a * 10 ^ k + t := by
  intro k
  induction k with
  | zero =>
    intro t a ht
    have ht0 : t = 0 := by simpa using ht
    simp [padDigits, ht0]
  | succ k ih =>
    intro t a ht
    have hpos : 0 < 10 ^ k := pow_pos (by omega) k
    simp only [padDigits, List.foldl_cons]
    rw [ih (t % 10 ^ k) _ (Nat.mod_lt t hpos)]
    calc (10 * a + t / 10 ^ k) * 10 ^ k + t % 10 ^ k
        = a * (10 ^ k * 10) + (10 ^ k * (t / 10 ^ k) + t % 10 ^ k) := by ring
      _ = a * 10 ^ (k + 1) + t := by rw [Nat.div_add_mod, pow_succ]

theorem padDigits_all_lt : ∀ (k t : Nat), t < 10 ^ k →
    (padDigits k t).all (fun d => d < 10) = true := by
  intro k
  induction k with
  | zero => intro t ht; rfl
  | succ k ih =>
    intro t ht
    have hpos : 0 < 10 ^ k := pow_pos (by omega) k
    simp only [padDigits, List.all_cons, Bool.and_eq_true]
    constructor
    · have hdiv : t / 10 ^ k < 10 := Nat.div_lt_of_lt_mul (by rw [← pow_succ]; exact ht)
      simpa using hdiv
    · exact ih (t % 10 ^ k) (Nat.mod_lt t hpos)

theorem parseIntName_pad12 (t : Nat) (ht : t < 10 ^ 12) :
    parseIntName (pad12 t) = some t := by
  unfold parseIntName pad12
  rw [if_pos ⟨by simp [padDigits], padDigits_all_lt 12 t ht⟩]
  rw [padDigits_foldl 12 t 0 ht]
  norm_num

/-- The lexicographically largest name: model of sorting the bundle names
descending by Go string comparison and keeping index 0
(`sort.Sort(sort.Reverse(sort.StringSlice(bundles)))` followed by
`bundles[0]`). -/
def lexMax (names : List ObjName) : ObjName :=
  names.foldl (fun m x => if lexLt m x then x else m) []

theorem lexMax_go (times : List Nat) : ∀ (a : Nat), a < 10 ^ 12 → (∀ t ∈ times, t < 10 ^ 12) →
    (times.map pad12).foldl (fun m x => if lexLt m x then x else m) (pad12 a)
      = pad12 (times.foldl Nat.max a) := by
  induction times with
  | nil => intro a _ _; rfl
  | cons t ts ih =>
    intro a ha hb
    have hbt : t < 10 ^ 12 := hb t (List.mem_cons_self t ts)
    have hlt : lexLt (pad12 a) (pad12 t) = true ↔ a < t :=
      padDigits_lt_iff 12 a t ha hbt
    simp only [List.map_cons, List.foldl_cons]
    by_cases h : a < t
    · rw [if_pos (hlt.2 h)]
      have hmax : Nat.max a t = t := Nat.max_eq_right (Nat.le_of_lt h)
      rw [hmax, ih t hbt (fun x hx => hb x (List.mem_cons_of_mem t hx))]
    · have hfalse : lexLt (pad12 a) (pad12 t) = false := by
        rcases hx : lexLt (pad12 a) (pad12 t) with _ | _
        · rfl
        · exact absurd (hlt.1 hx) h
      rw [hfalse]
      simp only [Bool.false_eq_true, if_false]
      have hmax : Nat.max a t = a := Nat.max_eq_left (Nat.not_lt.1 h)
      rw [hmax, ih a ha (fun x hx => hb x (List.mem_cons_of_mem t hx))]

theorem lexMax_map_pad12 (t0 : Nat) (ts : List Nat)
    (hb : ∀ t ∈ t0 :: ts, t < 10 ^ 12) :
    lexMax ((t0 :: ts).map pad12) = pad12 ((t0 :: ts).foldl Nat.max 0) := by
  unfold lexMax
  simp only [List.map_cons, List.foldl_cons]
  have ht0 : t0 < 10 ^ 12 := hb t0 (List.mem_cons_self t0 ts)
  have h0 : lexLt [] (pad12 t0) = true := rfl
  rw [h0]
  simp only [if_true]
  have hmax : Nat.max 0 t0 = t0 := Nat.max_eq_right (Nat.zero_le t0)
  rw [hmax, lexMax_go ts t0 ht0 (fun x hx => hb x (List.mem_cons_of_mem t0 hx))]

theorem foldl_max_ge_init (l : List Nat) : ∀ a, a ≤ l.foldl Nat.max a := by
  induction l with
  | nil => intro a; exact le_refl a
  | cons x xs ih =>
    intro a
    exact le_trans (Nat.le_max_left a x) (ih (Nat.max a x))

theorem foldl_max_ge_mem (l : List Nat) : ∀ a, ∀ t ∈ l, t ≤ l.foldl Nat.max a := by
  induction l with
  | nil => intro a t ht; simp at ht
  | cons x xs ih =>
    intro a t ht
    rcases List.mem_cons.1 ht with rfl | h2
    · exact le_trans (Nat.le_max_right a t) (foldl_max_ge_init xs (Nat.max a t))
    · exact ih (Nat.max a x) t h2

theorem foldl_max_mem_or_init (l : List Nat) :
    ∀ a, l.foldl Nat.max a = a ∨ l.foldl Nat.max a ∈ l := by
  induction l with
  | nil => intro a; exact Or.inl rfl
  | cons x xs ih =>
    intro a
    simp only [List.foldl_cons]
    rcases ih (Nat.max a x) with h | h
    · rcases Nat.le_total a x with hax | hxa
      · right
        have hmax : Nat.max a x = x := Nat.max_eq_right hax
        rw [h, hmax]
        exact List.mem_cons_self x xs
      · left
        have hmax : Nat.max a x = a := Nat.max_eq_left hxa
        rw [h, hmax]
    · right
      exact List.mem_cons_of_mem x h

theorem pad12_inj {a b : Nat} (ha : a < 10 ^ 12) (hb : b < 10 ^ 12)
    (h : pad12 a = pad12 b) : a = b := by
  have h1 := parseIntName_pad12 a ha
  have h2 := parseIntName_pad12 b hb
  rw [h] at h1
  rw [h1] at h2
  exact Option.some.inj h2

theorem filter_beq_single {l : List ObjName} {m : ObjName} (hm : m ∈ l) (hnd : l.Nodup) :
    l.filter (fun n => n == m) = [m] := by
  induction l with
  | nil => simp at hm
  | cons x xs ih =>
    have hnd2 := (List.nodup_cons.1 hnd).2
    rcases List.mem_cons.1 hm with rfl | hmem
    · have hnotin : m ∉ xs := (List.nodup_cons.1 hnd).1
      have hxs : xs.filter (fun n => n == m) = [] := by
        rw [List.filter_eq_nil_iff]
        intro a ha
        simp only [beq_iff_eq]
        intro hc
        exact hnotin (hc ▸ ha)
      simp [List.filter_cons, hxs]
    · have hxm : ¬(x == m) = true := by
        simp only [beq_iff_eq]
        intro hc
        exact (List.nodup_cons.1 hnd).1 (by rw [hc]; exact hmem)
      simp only [List.filter_cons, if_neg hxm]
      exact ih hmem hnd2

theorem nodup_map_pad12 {times : List Nat} (hb : ∀ t ∈ times, t < 10 ^ 12)
    (hnd : times.Nodup) : (times.map pad12).Nodup := by
  refine List.Nodup.map_on ?_ hnd
  intro x hx y hy hxy
  exact pad12_inj (hb x hx) (hb y hy) hxy

/-- Model of `backupReaderWriter.gcBundle` (google/backup.go:381-422),
restricted to the object base names under one repository's bundle prefix.
The filter loop reproduces the source's slip of parsing `names[0]` instead of
the iterated `name`, so either every listed name or none counts as a bundle.
When no bundle is found, the zero time, an empty name and the unchanged
listing are returned. Otherwise sorting descending by Go string order and
keeping index 0 is modelled as keeping the lexicographic maximum; every other
bundle is deleted, and the kept name's parsed timestamp (0 when unparseable,
as `ParseInt`'s result is used despite its error) is returned. Times are
seconds since epoch as `Nat`, with the zero time modelled as 0. -/
def gcBundle (names : List ObjName) : Nat × ObjName × List ObjName :=
  let bundles := names.filter (fun _ => (parseIntName (names.headD [])).isSome)
  if bundles.isEmpty then (0, [], names)
  else
    let keep := lexMax bundles
    ((parseIntName keep).getD 0, keep,
      names.filter (fun n => n == keep || !(bundles.contains n)))

/-- Model of one repository's step of `backupReaderWriter.saveBackup`
(google/backup.go:353-369): garbage-collect the bundle prefix, then skip when
the kept bundle's timestamp is at least the repository's `lastUpdate`
(compared at second precision), otherwise write a new bundle named
`%012d` of `lastUpdate`. Returns the object names under the repository's
bundle prefix after a successful cycle. -/
def snapshotRepo (names : List ObjName) (lastUpdate : Nat) : List ObjName :=
  let r := gcBundle names
  if lastUpdate ≤ r.1 then r.2.2
  else r.2.2 ++ [pad12 lastUpdate]

/-- C2 counterexample: a snapshot cycle over a prefix holding the bundles
`000000000001` and `000000000002`, for a repository whose `lastUpdate` is 5,
leaves TWO bundles — the pre-existing newest (kept by the GC, which runs
before the new bundle is written) and the newly written `000000000005` — not
exactly one. -/
theorem snapshot_leaves_two_bundles :
    snapshotRepo [pad12 1, pad12 2] 5 = [pad12 2, pad12 5]
    ∧ (snapshotRepo [pad12 1, pad12 2] 5).length ≠ 1 := by
  constructor
  · decide
  · decide

theorem gcBundle_eval (t0 : Nat) (ts : List Nat)
    (hb : ∀ t ∈ t0 :: ts, t < 10 ^ 12) (hnd : (t0 :: ts).Nodup) :
    gcBundle ((t0 :: ts).map pad12)
      = ((t0 :: ts).foldl Nat.max 0, pad12 ((t0 :: ts).foldl Nat.max 0),
         [pad12 ((t0 :: ts).foldl Nat.max 0)]) := by
  have ht0 : t0 < 10 ^ 12 := hb t0 (List.mem_cons_self t0 ts)
  have hmem : (t0 :: ts).foldl Nat.max 0 ∈ t0 :: ts := by
    rcases foldl_max_mem_or_init (t0 :: ts) 0 with h | h
    · have ht0le : t0 ≤ (t0 :: ts).foldl Nat.max 0 :=
        foldl_max_ge_mem (t0 :: ts) 0 t0 (List.mem_cons_self t0 ts)
      rw [h] at ht0le
      have ht00 : t0 = 0 := Nat.le_zero.1 ht0le
      rw [h, ← ht00]
      exact List.mem_cons_self t0 ts
    · exact h
  have htmax : (t0 :: ts).foldl Nat.max 0 < 10 ^ 12 := hb _ hmem
  have hcond : ∀ x ∈ (t0 :: ts).map pad12,
      (fun (_ : ObjName) => (parseIntName (((t0 :: ts).map pad12).headD [])).isSome) x
        = (fun (_ : ObjName) => true) x := by
    intro x _
    simp only [List.map_cons, List.headD_cons, parseIntName_pad12 t0 ht0, Option.isSome_some]
  have hfilter : ((t0 :: ts).map pad12).filter
      (fun _ => (parseIntName (((t0 :: ts).map pad12).headD [])).isSome)
      = (t0 :: ts).map pad12 :=
    (List.filter_congr hcond).trans (List.filter_true _)
  have hkeep : lexMax ((t0 :: ts).map pad12) = pad12 ((t0 :: ts).foldl Nat.max 0) :=
    lexMax_map_pad12 t0 ts hb
  have hnodupn : ((t0 :: ts).map pad12).Nodup := nodup_map_pad12 hb hnd
  have hkmem : pad12 ((t0 :: ts).foldl Nat.max 0) ∈ (t0 :: ts).map pad12 :=
    List.mem_map_of_mem pad12 hmem
  have hne : ((t0 :: ts).map pad12).isEmpty = false := by
    simp [List.map_cons]
  have hrem : ((t0 :: ts).map pad12).filter
      (fun n => n == pad12 ((t0 :: ts).foldl Nat.max 0)
        || !(((t0 :: ts).map pad12).contains n))
      = [pad12 ((t0 :: ts).foldl Nat.max 0)] := by
    have hcongr : ∀ x ∈ (t0 :: ts).map pad12,
        (x == pad12 ((t0 :: ts).foldl Nat.max 0)
          || !(((t0 :: ts).map pad12).contains x))
        = (x == pad12 ((t0 :: ts).foldl Nat.max 0)) := by
      intro x hx
      have hcont : ((t0 :: ts).map pad12).contains x = true := List.elem_iff.2 hx
      rw [hcont]
      simp
    rw [List.filter_congr hcongr]
    exact filter_beq_single hkmem hnodupn
  simp only [gcBundle, hfilter, hne, Bool.false_eq_true, if_false, hkeep, hrem,
    parseIntName_pad12 _ htmax, Option.getD_some]

/-- C2 amended: bundle filenames written by the system parse as integers, and
after a successful snapshot cycle the repository's bundle prefix holds the
numerically largest pre-existing bundle plus — only when `lastUpdate` is newer
than it — one newly written bundle named by `lastUpdate`, which is then the
numerically largest. So a cycle that writes no new bundle leaves exactly one
bundle, while a cycle that writes a new bundle leaves exactly two: the source
garbage-collects before writing, so the previously newest bundle survives
until the next cycle. (The claimed "exactly one bundle after any successful
cycle" fails; see the counterexample.) -/
theorem snapshotRepo_spec (t0 : Nat) (ts : List Nat) (lastUpdate : Nat)
    (hnd : (t0 :: ts).Nodup)
    (hb : ∀ t ∈ t0 :: ts, t < 10 ^ 12)
    (hlu : lastUpdate < 10 ^ 12) :
    ∃ tmax, tmax ∈ t0 :: ts ∧ (∀ t ∈ t0 :: ts, t ≤ tmax)
      ∧ snapshotRepo ((t0 :: ts).map pad12) lastUpdate
          = (if lastUpdate ≤ tmax then [pad12 tmax] else [pad12 tmax, pad12 lastUpdate])
      ∧ ∀ n ∈ snapshotRepo ((t0 :: ts).map pad12) lastUpdate,
          (parseIntName n).isSome = true := by
  have hgc := gcBundle_eval t0 ts hb hnd
  have hmem : (t0 :: ts).foldl Nat.max 0 ∈ t0 :: ts := by
    rcases foldl_max_mem_or_init (t0 :: ts) 0 with h | h
    · have ht0le : t0 ≤ (t0 :: ts).foldl Nat.max 0 :=
        foldl_max_ge_mem (t0 :: ts) 0 t0 (List.mem_cons_self t0 ts)
      rw [h] at ht0le
      have ht00 : t0 = 0 := Nat.le_zero.1 ht0le
      rw [h, ← ht00]
      exact List.mem_cons_self t0 ts
    · exact h
  have htmax : (t0 :: ts).foldl Nat.max 0 < 10 ^ 12 := hb _ hmem
  refine ⟨(t0 :: ts).foldl Nat.max 0, hmem,
    fun t ht => foldl_max_ge_mem (t0 :: ts) 0 t ht, ?_, ?_⟩
  · unfold snapshotRepo
    rw [hgc]
    by_cases hcmp : lastUpdate ≤ (t0 :: ts).foldl Nat.max 0
    · rw [if_pos hcmp, if_pos hcmp]
    · rw [if_neg hcmp, if_neg hcmp]
      rfl
  · intro n hn
    unfold snapshotRepo at hn
    rw [hgc] at hn
    by_cases hcmp : lastUpdate ≤ (t0 :: ts).foldl Nat.max 0
    · rw [if_pos hcmp] at hn
      have hn2 : n = pad12 ((t0 :: ts).foldl Nat.max 0) := by simpa using hn
      rw [hn2, parseIntName_pad12 _ htmax]
      rfl
    · rw [if_neg hcmp] at hn
      have hn2 : n = pad12 ((t0 :: ts).foldl Nat.max 0) ∨ n = pad12 lastUpdate := by
        simpa using hn
      rcases hn2 with rfl | rfl
      · rw [parseIntName_pad12 _ htmax]
        rfl
      · rw [parseIntName_pad12 _ hlu]
        rfl

/-- Witness for the amended C2 theorem at the counterexample's inputs: the
cycle keeps the largest pre-existing bundle and writes the new one. -/
theorem snapshotRepo_spec_witness :
    snapshotRepo ([1, 2].map pad12) 5 = [pad12 2, pad12 5] := by
  obtain ⟨tmax, hmem, hub, heq, hparse⟩ :=
    snapshotRepo_spec 1 [2] 5 (by decide) (by decide) (by decide)
  have h2 : 2 ≤ tmax := hub 2 (by decide)
  have hm : tmax = 1 ∨ tmax = 2 := by simpa using hmem
  have htm : tmax = 2 := by omega
  rw [htm] at heq
  rw [if_neg (by decide)] at heq
  exact heq

end Goblet
